import Mathlib

/-!
# Verification of the Credenz storage-cleaner engine

Shallow embedding of the scan–classify–deduplicate–clean engine of the
storage-cleaner repository.  The server implementation (an Express app:
`categorizeFile`, `scanRoot`, `withinRoot`, `POST /api/clean`) and the client
implementation (`App.js`: `categorizeName`, `scanSafTree`, `buildCategories`,
`runDeviceClean`) are both embedded.  Filesystems are modelled as finite trees
of named files and directories; JavaScript numbers are modelled as `Nat`
(all sizes are non-negative integers); fallible I/O (unlink) is modelled by an
explicit success oracle; the persisted history blob is modelled as the list it
decodes to.
-/

namespace StorageCleaner

/-- `const MB = 1024 * 1024`. -/
def MB : Nat := 1024 * 1024

/-- `toMB = (bytes) => Math.max(0, Math.round(bytes / MB))`.
`Math.round` is round-half-up, so on naturals it is `(bytes + MB / 2) / MB`
(integer division); the `Math.max(0, _)` clamp is vacuous on `Nat`. -/
def toMB (bytes : Nat) : Nat := (bytes + MB / 2) / MB

/-- `String.prototype.toLowerCase` (ASCII case mapping, as in `Char.toLower`). -/
def lowerStr (s : String) : String := String.mk (s.data.map Char.toLower)

/-- `haystack.includes(needle)`: substring containment. -/
def strIncludes (haystack needle : String) : Bool :=
  decide (needle.data <:+: haystack.data)

/-- The final path segment of a character list (the text after the last `/`). -/
def lastSegment (l : List Char) : List Char :=
  (l.reverse.takeWhile (fun c => c ≠ '/')).reverse

/-- Node's `path.extname`, applied by the server categorizer: the extension of
the final path segment, starting at its last dot; it is empty when that
segment has no dot, when its only dot is the leading character (dotfiles such
as `.gitignore`), or when the segment is `..`. -/
def extnameOf (p : String) : String :=
  let base := lastSegment p.data
  let after := base.reverse.takeWhile (fun c => c ≠ '.')
  if after.length = base.length then ""
  else if base.length - after.length - 1 = 0 then ""
  else if base = ['.', '.'] then ""
  else String.mk ('.' :: after.reverse)

/-- `MEDIA_EXTS` (identical on server and client). -/
def MEDIA_EXTS : List String :=
  [".mp4", ".mov", ".mkv", ".avi", ".zip", ".rar", ".7z", ".tar", ".gz", ".iso"]

/-- `LOG_EXTS` (identical on server and client). -/
def LOG_EXTS : List String := [".log"]

/-- `IGNORED_DIRS` (server walker). -/
def IGNORED_DIRS : List String := ["node_modules", ".git", ".expo"]

/-- Server `categorizeFile` (`path.sep` is `/` on the server host):
lower-case the whole path, then in priority order: a `/cache/` or `/tmp/`
substring gives `cache`; a `/downloads/` substring gives `downloads`;
otherwise the `path.extname` of the lowered path selects `media` or `logs`;
otherwise `null`. -/
def categorizeFile (filePath : String) : Option String :=
  let lower := lowerStr filePath
  if strIncludes lower "/cache/" || strIncludes lower "/tmp/" then some "cache"
  else if strIncludes lower "/downloads/" then some "downloads"
  else
    let ext := extnameOf lower
    if ext ∈ MEDIA_EXTS then some "media"
    else if ext ∈ LOG_EXTS then some "logs"
    else none

/-- Client `guessNameFromUri`: `uri.split("/").pop() || uri`
(`decodeURIComponent` is modelled as the identity). -/
def guessNameFromUri (uri : String) : String :=
  let last := (uri.data.reverse.takeWhile (fun c => c ≠ '/')).reverse
  if last.isEmpty then uri else String.mk last

/-- Client extension: `name.toLowerCase().slice(name.lastIndexOf("."))`.
When the name has no dot, `lastIndexOf` returns `-1` and `slice(-1)` keeps
just the final character of the lowered name. -/
def extClient (name : String) : String :=
  let lower := (lowerStr name).data
  let after := lower.reverse.takeWhile (fun c => c ≠ '.')
  if after.length = lower.length then String.mk (lower.drop (lower.length - 1))
  else String.mk (lower.drop (lower.length - after.length - 1))

/-- Client `categorizeName(name, uri)`: lower-cases `` `${name} ${uri}` ``,
checks `/cache/` / `/tmp/`, then the substrings `downloads` / `download`,
then the extension of `name`. -/
def categorizeName (name uri : String) : Option String :=
  let lower := lowerStr (name ++ " " ++ uri)
  if strIncludes lower "/cache/" || strIncludes lower "/tmp/" then some "cache"
  else if strIncludes lower "downloads" || strIncludes lower "download" then some "downloads"
  else
    let ext := extClient name
    if ext ∈ MEDIA_EXTS then some "media"
    else if ext ∈ LOG_EXTS then some "logs"
    else none

/-- One walked file: `{ path, name, size, category }` (the client stores the
SAF uri in the `path` field). -/
structure FileRecord where
  path : String
  name : String
  size : Nat
  category : Option String
deriving DecidableEq, Repr

/-- The duplicate-map key `` `${file.name}:${file.size}` ``. -/
def dupKey (f : FileRecord) : String := f.name ++ ":" ++ toString f.size

/-- The duplicate pass of `scanRoot` / `buildCategories`: records are grouped
in a `Map` keyed by `dupKey` (groups in insertion order), and every member of
a group except the first (`group.slice(1)`) has its category overwritten with
`"duplicates"`.  Functionally: a record is retagged exactly when an earlier
record of the list shares its key, which the accumulator `seen` tracks. -/
def dedupAux : List String → List FileRecord → List FileRecord
  | _, [] => []
  | seen, f :: rest =>
    (if dupKey f ∈ seen then { f with category := some "duplicates" } else f)
      :: dedupAux (dupKey f :: seen) rest

/-- Duplicate detection over the walked file list (lines 105–126 of the server,
lines 88–101 of the client). -/
def dedup (files : List FileRecord) : List FileRecord := dedupAux [] files

/-- A filesystem entry: a regular file with a byte size, or a directory with
its `readdir` listing (in directory order).  Entries the walker skips
(non-file non-directory entries, unreadable entries) are simply absent from
the tree, matching the walker's silent-skip behaviour. -/
inductive FS where
  | file (name : String) (size : Nat)
  | dir (name : String) (entries : List FS)

mutual

/-- Weight of a tree, used to measure the walker's work stack. -/
def fsWeight : FS → Nat
  | .file _ _ => 1
  | .dir _ es => 1 + fsListWeight es

/-- Weight of a listing. -/
def fsListWeight : List FS → Nat
  | [] => 0
  | e :: es => fsWeight e + fsListWeight es

end

/-- Weight of the walker's work stack. -/
def stackWeight : List (String × List FS) → Nat
  | [] => 0
  | (_, es) :: rest => 1 + fsListWeight es + stackWeight rest

/-- The file records the server walker emits while processing one directory's
listing: for each regular file, `path.join(current, entry.name)` (modelled as
`current ++ "/" ++ name`), the name, the stat size, and the category. -/
def dirFiles (cur : String) (entries : List FS) : List FileRecord :=
  entries.filterMap fun e =>
    match e with
    | .file n sz =>
      some { path := cur ++ "/" ++ n, name := n, size := sz,
             category := categorizeFile (cur ++ "/" ++ n) }
    | .dir _ _ => none

/-- The subdirectories the server walker pushes while processing one
directory's listing, in listing order; directories named in `IGNORED_DIRS`
are skipped (`continue`) and never pushed. -/
def subDirs (cur : String) (entries : List FS) : List (String × List FS) :=
  entries.filterMap fun e =>
    match e with
    | .dir n es => if n ∈ IGNORED_DIRS then none else some (cur ++ "/" ++ n, es)
    | .file _ _ => none

theorem stackWeight_append (a b : List (String × List FS)) :
    stackWeight (a ++ b) = stackWeight a + stackWeight b := by
  induction a with
  | nil => simp [stackWeight]
  | cons p rest ih =>
    obtain ⟨c, es⟩ := p
    simp [stackWeight, ih]
    omega

theorem stackWeight_reverse (a : List (String × List FS)) :
    stackWeight a.reverse = stackWeight a := by
  induction a with
  | nil => rfl
  | cons p rest ih =>
    obtain ⟨c, es⟩ := p
    simp [stackWeight, List.reverse_cons, stackWeight_append, ih]
    omega

theorem stackWeight_subDirs_le (cur : String) (entries : List FS) :
    stackWeight (subDirs cur entries) ≤ fsListWeight entries := by
  induction entries with
  | nil => simp [subDirs, stackWeight]
  | cons e rest ih =>
    cases e with
    | file n sz =>
      simp only [subDirs, List.filterMap_cons] at *
      simp only [fsListWeight, fsWeight]
      omega
    | dir n es =>
      simp only [subDirs, List.filterMap_cons] at *
      by_cases h : n ∈ IGNORED_DIRS
      · simp only [if_pos h, fsListWeight, fsWeight]
        omega
      · simp only [if_neg h, fsListWeight, fsWeight, stackWeight]
        omega

theorem walk_step_lt (cur : String) (entries : List FS)
    (rest : List (String × List FS)) :
    stackWeight ((subDirs cur entries).reverse ++ rest)
      < stackWeight ((cur, entries) :: rest) := by
  simp only [stackWeight_append, stackWeight_reverse, stackWeight]
  have := stackWeight_subDirs_le cur entries
  omega

/-- The server walker's loop (`scanRoot`, lines 73–103): pop a directory from
the work stack (`stack.pop()` takes the most recently pushed entry, so the
stack head is the top), emit a record for every regular file of its listing,
and push every non-ignored subdirectory in listing order (so the LAST
subdirectory of the listing is processed next). -/
def walkAux (stack : List (String × List FS)) : List FileRecord :=
  match stack with
  | [] => []
  | (cur, entries) :: rest =>
    dirFiles cur entries ++ walkAux ((subDirs cur entries).reverse ++ rest)
termination_by stackWeight stack
decreasing_by
  apply walk_step_lt

theorem walkAux_nil : walkAux [] = [] := by
  rw [walkAux.eq_def]

theorem walkAux_cons (cur : String) (entries : List FS)
    (rest : List (String × List FS)) :
    walkAux ((cur, entries) :: rest)
      = dirFiles cur entries ++ walkAux ((subDirs cur entries).reverse ++ rest) := by
  rw [walkAux.eq_def]

/-- `scanRoot`'s walking phase: the work stack starts with just the root.
(The tree is the root directory's listing.) -/
def scanFiles (root : String) (entries : List FS) : List FileRecord :=
  walkAux [(root, entries)]

/-- One `categories` entry of a scan snapshot. -/
structure CategorySummary where
  id : String
  name : String
  description : String
  sizeMB : Nat
deriving DecidableEq, Repr

/-- A scan snapshot (`scanRoot`'s return value, minus the timestamp, which the
engine does not compute from the file data). `categoryFiles` is the bucket
lookup `scan.categoryFiles[id]`, total for every id (`[]` off the five). -/
structure Snapshot where
  totalUsedMB : Nat
  totalReclaimableMB : Nat
  categories : List CategorySummary
  categoryFiles : String → List FileRecord

/-- The five fixed category ids, in the snapshot's fixed order. -/
def CATEGORY_IDS : List String := ["cache", "downloads", "duplicates", "media", "logs"]

/-- `files.reduce((s, f) => s + f.size, 0)`. -/
def sumSizes (files : List FileRecord) : Nat := files.foldl (fun s f => s + f.size) 0

/-- The bucket loop of `scanRoot` (lines 128–132): each record whose (post-
dedup) category is one of the five bucket ids is pushed into that bucket, in
list order; records with category `null` (or an id without a bucket) go
nowhere. -/
def categoryFilesOf (files : List FileRecord) (id : String) : List FileRecord :=
  if id ∈ CATEGORY_IDS then files.filter (fun f => f.category = some id) else []

/-- The `categories` array literal of `scanRoot` (lines 134–165), as a
function of the deduplicated file list: one summary per fixed category id, in
order, with `sizeMB` the rounded byte sum of that category's bucket. -/
def scanCategories (files : List FileRecord) : List CategorySummary :=
  [⟨"cache", "App Cache", "Temporary app data", toMB (sumSizes (categoryFilesOf files "cache"))⟩,
   ⟨"downloads", "Downloads", "Unsorted files", toMB (sumSizes (categoryFilesOf files "downloads"))⟩,
   ⟨"duplicates", "Duplicates", "Exact file copies", toMB (sumSizes (categoryFilesOf files "duplicates"))⟩,
   ⟨"media", "Large Media", "Videos and archives", toMB (sumSizes (categoryFilesOf files "media"))⟩,
   ⟨"logs", "Old Logs", "System logs", toMB (sumSizes (categoryFilesOf files "logs"))⟩]

/-- Server `scanRoot` (lines 69–177): walk, deduplicate, bucket by category,
summarize each bucket in MB, and total up.  `totalUsedMB` rounds the byte sum
of ALL walked files; `totalReclaimableMB` is
`categories.reduce((s, c) => s + c.sizeMB, 0)`. -/
def scanRoot (root : String) (tree : List FS) : Snapshot :=
  let files := dedup (scanFiles root tree)
  { totalUsedMB := toMB (sumSizes files),
    totalReclaimableMB := (scanCategories files).foldl (fun s c => s + c.sizeMB) 0,
    categories := scanCategories files,
    categoryFiles := categoryFilesOf files }

theorem scanRoot_categories (root : String) (tree : List FS) :
    (scanRoot root tree).categories = scanCategories (dedup (scanFiles root tree)) := rfl

theorem scanRoot_reclaimable (root : String) (tree : List FS) :
    (scanRoot root tree).totalReclaimableMB
      = (scanCategories (dedup (scanFiles root tree))).foldl (fun s c => s + c.sizeMB) 0 := rfl

theorem scanRoot_used (root : String) (tree : List FS) :
    (scanRoot root tree).totalUsedMB = toMB (sumSizes (dedup (scanFiles root tree))) := rfl

theorem scanRoot_categoryFiles (root : String) (tree : List FS) :
    (scanRoot root tree).categoryFiles = categoryFilesOf (dedup (scanFiles root tree)) := rfl

/-- Server `withinRoot` (lines 179–183):
`path.resolve(filePath).startsWith(path.resolve(STORAGE_ROOT) + path.sep)`.
`path.resolve` is modelled as the identity: the engine only ever feeds
`withinRoot` paths the walker produced by joining under the (absolute) root,
which are already resolved.  `startsWith` is character-prefix testing. -/
def withinRoot (root : String) (filePath : String) : Bool :=
  (root ++ "/").data.isPrefixOf filePath.data

/-- One persisted history record. -/
structure HistoryEntry where
  id : String
  time : String
  cleanedMB : Nat
  cleanedFiles : Nat
  categories : List String
  simulated : Bool
deriving DecidableEq, Repr

/-- The observable outcome of one clean invocation: the reported counters plus
the list of paths actually unlinked (the filesystem mutation performed). -/
structure CleanOutcome where
  cleanedBytes : Nat
  cleanedFiles : Nat
  simulated : Bool
  deleted : List String
deriving DecidableEq, Repr

/-- The `categories` field of a `POST /api/clean` request body:
absent (`req.body` missing or without the field), present but not an array,
or an array of strings. -/
inductive CleanBody where
  | missing
  | notArray
  | cats (l : List String)
deriving DecidableEq, Repr

/-- `new Set(l)`, iterated in insertion order: first occurrences, in order. -/
def jsSet (l : List String) : List String :=
  l.foldl (fun acc x => if x ∈ acc then acc else acc ++ [x]) []

/-- `Array.isArray(categories) ? new Set(categories) : new Set()` (line 205). -/
def targetIdsOf : CleanBody → List String
  | .cats l => jsSet l
  | _ => []

/-- The candidate list of `POST /api/clean` (lines 207–213): concatenate
`scan.categoryFiles[id] || []` over the selected ids. -/
def candidatesOf (root : String) (tree : List FS) (body : CleanBody) : List FileRecord :=
  (targetIdsOf body).foldl (fun acc id => acc ++ (scanRoot root tree).categoryFiles id) []

/-- The apply-mode deletion loop (lines 220–229): for each candidate, skip it
if `withinRoot` fails; otherwise attempt `unlink` (success decided by the
oracle `deleteOk`); on success accumulate bytes, count and the deleted path;
on failure continue.  Returns `(cleanedBytes, cleanedFiles, deletedPaths)`. -/
def applyDelete (root : String) (deleteOk : String → Bool)
    (candidates : List FileRecord) : Nat × Nat × List String :=
  candidates.foldl
    (fun acc f =>
      if withinRoot root f.path = false then acc
      else if deleteOk f.path then (acc.1 + f.size, acc.2.1 + 1, acc.2.2 ++ [f.path])
      else acc)
    (0, 0, [])

/-- `store.history.unshift(entry); store.history = store.history.slice(0, 10)`
(lines 238–246); the client does the same with `[entry, ...history].slice(0, 10)`. -/
def updateHistory (entry : HistoryEntry) (history : List HistoryEntry) : List HistoryEntry :=
  (entry :: history).take 10

/-- `POST /api/clean` (lines 203–256): select target ids from the body, scan,
build the candidate list, then either delete (apply mode, `ALLOW_DELETE`) or
sum the candidate list (simulate mode), and prepend a history entry to the
truncated ledger.  `allowDelete` is the process-wide `CLEANER_ALLOW_DELETE`
flag; `eid`/`ts` stand for the wall-clock-derived id and timestamp. -/
def cleanHandler (allowDelete : Bool) (root : String) (tree : List FS)
    (body : CleanBody) (deleteOk : String → Bool)
    (history : List HistoryEntry) (eid ts : String) :
    CleanOutcome × List HistoryEntry :=
  let filesToClean := candidatesOf root tree body
  let res :=
    if allowDelete then applyDelete root deleteOk filesToClean
    else (sumSizes filesToClean, filesToClean.length, [])
  let simulated := !allowDelete
  let entry : HistoryEntry :=
    { id := eid, time := ts, cleanedMB := toMB res.1, cleanedFiles := res.2.1,
      categories := targetIdsOf body, simulated := simulated }
  ({ cleanedBytes := res.1, cleanedFiles := res.2.1, simulated := simulated,
     deleted := res.2.2 },
   updateHistory entry history)

/-- `const MAX_SCAN_FILES = 1500` (client). -/
def MAX_SCAN_FILES : Nat := 1500

/-- The name stored in an `FS` node (the last segment of its SAF uri). -/
def entryName : FS → String
  | .file n _ => n
  | .dir n _ => n

mutual

/-- Client `scanSafTree(uri, files)` (lines 220–250): return unchanged once
`files.length >= MAX_SCAN_FILES`; a directory recurses over its children
(checking the cap before each child), a file pushes one record with
`guessNameFromUri(uri)`, the size, and `categorizeName`. -/
def scanSafTree : String → FS → List FileRecord → List FileRecord
  | uri, t, files =>
    if MAX_SCAN_FILES ≤ files.length then files
    else
      match t with
      | .file _ sz =>
        let nm := guessNameFromUri uri
        files ++ [{ path := uri, name := nm, size := sz, category := categorizeName nm uri }]
      | .dir _ children => scanSafChildren uri children files

/-- The `for (const child of children)` loop of `scanSafTree`, threading the
accumulated record list; a child's uri is its name joined under the parent. -/
def scanSafChildren : String → List FS → List FileRecord → List FileRecord
  | _, [], files => files
  | uri, c :: rest, files =>
    if MAX_SCAN_FILES ≤ files.length then files
    else scanSafChildren uri rest (scanSafTree (uri ++ "/" ++ entryName c) c files)

end

/-- Client `scanDeviceStorage` (lines 252–281), reduced to its engine part:
walk from an empty record list and compute
`limitReached = files.length >= MAX_SCAN_FILES`. -/
def scanDeviceStorage (uri : String) (t : FS) : List FileRecord × Bool :=
  let files := scanSafTree uri t []
  (files, decide (MAX_SCAN_FILES ≤ files.length))

/-! ## Helper lemmas -/

theorem sumSizes_eq_sum_map (l : List FileRecord) :
    sumSizes l = (l.map (fun f => f.size)).sum := by
  suffices h : ∀ a : Nat, l.foldl (fun s f => s + f.size) a
      = a + (l.map (fun f => f.size)).sum by
    simpa [sumSizes] using h 0
  induction l with
  | nil => simp
  | cons f rest ih => intro a; simp [ih]; omega

theorem dedupAux_map_size (seen : List String) (l : List FileRecord) :
    (dedupAux seen l).map (fun f => f.size) = l.map (fun f => f.size) := by
  induction l generalizing seen with
  | nil => rfl
  | cons f rest ih =>
    simp only [dedupAux, List.map_cons, ih]
    split <;> rfl

theorem sumSizes_dedup (l : List FileRecord) : sumSizes (dedup l) = sumSizes l := by
  simp [sumSizes_eq_sum_map, dedup, dedupAux_map_size]

theorem scanCategories_foldl (files : List FileRecord) :
    (scanCategories files).foldl (fun s c => s + c.sizeMB) 0
      = ((scanCategories files).map (fun c => c.sizeMB)).sum := by
  rw [scanCategories]
  rw [List.foldl_cons, List.foldl_cons, List.foldl_cons, List.foldl_cons,
    List.foldl_cons, List.foldl_nil]
  rw [List.map_cons, List.map_cons, List.map_cons, List.map_cons, List.map_cons,
    List.map_nil, List.sum_cons, List.sum_cons, List.sum_cons, List.sum_cons,
    List.sum_cons, List.sum_nil]
  simp [Nat.add_assoc]

theorem updateHistory_length_le (e : HistoryEntry) (h : List HistoryEntry) :
    (updateHistory e h).length ≤ 10 := by
  simp [updateHistory]

theorem updateHistory_headq (e : HistoryEntry) (h : List HistoryEntry) :
    (updateHistory e h).head? = some e := by
  simp [updateHistory, List.take_succ_cons]

/-- Eleven successive clean operations folded into an initially empty ledger. -/
def runCleans (es : List HistoryEntry) : List HistoryEntry :=
  es.foldl (fun h e => updateHistory e h) []

theorem runCleans_eleven (es : List HistoryEntry) (h11 : es.length = 11) :
    runCleans es = (es.drop 1).reverse := by
  rcases es with _ | ⟨e1, _ | ⟨e2, _ | ⟨e3, _ | ⟨e4, _ | ⟨e5, _ | ⟨e6, _ | ⟨e7, _ | ⟨e8, _ | ⟨e9, _ | ⟨e10, _ | ⟨e11, rest⟩⟩⟩⟩⟩⟩⟩⟩⟩⟩⟩ <;>
      simp only [List.length_cons, List.length_nil] at h11 <;>
      first
        | omega
        | (obtain rfl : rest = [] := List.length_eq_zero.mp (by omega)
           rfl)

/-! ## C5: snapshot totals -/

/-- C5: for every scan snapshot, `totalReclaimableMB` is the sum of the five
per-category `sizeMB` values (the sum of the rounded values, not the rounding
of a byte sum), and `totalUsedMB` is `round(bytes / 2^20)` (clamped at 0, which
is vacuous on `Nat` — see `toMB`) applied to the byte sum of ALL walked files,
categorized or not (deduplication only retags categories, so the byte sum over
the deduplicated list equals the byte sum over the walked list). -/
theorem snapshot_totals (root : String) (tree : List FS) :
    (scanRoot root tree).totalReclaimableMB
        = ((scanRoot root tree).categories.map (fun c => c.sizeMB)).sum
    ∧ (scanRoot root tree).totalUsedMB = toMB (sumSizes (scanFiles root tree)) := by
  constructor
  · rw [scanRoot_reclaimable, scanRoot_categories]
    exact scanCategories_foldl (dedup (scanFiles root tree))
  · rw [scanRoot_used, sumSizes_dedup]

/-! ## C4: bounded, newest-first history ledger -/

/-- C4: after every clean operation the ledger has at most 10 entries; the new
entry is prepended (it is the head, i.e. newest-first order); and after 11
clean operations starting from an empty ledger the surviving entries are
exactly the last ten, newest first — so the first (oldest) entry is absent. -/
theorem history_ledger_bounded :
    (∀ (e : HistoryEntry) (h : List HistoryEntry), (updateHistory e h).length ≤ 10)
    ∧ (∀ (e : HistoryEntry) (h : List HistoryEntry), (updateHistory e h).head? = some e)
    ∧ (∀ (d : Bool) (root : String) (tree : List FS) (body : CleanBody)
        (ok : String → Bool) (hist : List HistoryEntry) (eid ts : String),
        ((cleanHandler d root tree body ok hist eid ts).2).length ≤ 10)
    ∧ (∀ es : List HistoryEntry, es.length = 11 → runCleans es = (es.drop 1).reverse)
    ∧ (∀ (es : List HistoryEntry) (e : HistoryEntry), es.length = 11 →
        es.head? = some e → e ∉ es.drop 1 → e ∉ runCleans es) := by
  refine ⟨updateHistory_length_le, updateHistory_headq, ?_, runCleans_eleven, ?_⟩
  · intro d root tree body ok hist eid ts
    exact updateHistory_length_le _ _
  · intro es e h11 h0 hnot
    rw [runCleans_eleven es h11]
    simpa [List.mem_reverse] using hnot

/-- Witness for C4 at a concrete run of 11 distinct entries. -/
def histEntry (n : Nat) : HistoryEntry :=
  { id := Nat.repr n, time := "t", cleanedMB := 0, cleanedFiles := 0,
    categories := [], simulated := true }

theorem history_ledger_bounded_witness :
    histEntry 0 ∉ runCleans ((List.range 11).map histEntry) :=
  history_ledger_bounded.2.2.2.2 ((List.range 11).map histEntry) (histEntry 0)
    (by simp) (by decide) (by decide)

/-! ## C3: simulate mode -/

/-- C3: with the process-wide deletion flag disabled, clean performs no
filesystem mutation (`deleted = []` — no unlink is issued), reports
`cleanedBytes` as the byte sum of the candidate list, `cleanedFiles` as its
length, and `simulated = true`; and for every request body the
simulate/apply decision equals the negated flag alone — no per-call
parameter enters it. -/
theorem simulate_mode_pure :
    (∀ (root : String) (tree : List FS) (body : CleanBody) (ok : String → Bool)
        (hist : List HistoryEntry) (eid ts : String),
        (cleanHandler false root tree body ok hist eid ts).1 =
          { cleanedBytes := sumSizes (candidatesOf root tree body),
            cleanedFiles := (candidatesOf root tree body).length,
            simulated := true, deleted := [] })
    ∧ (∀ (d : Bool) (root : String) (tree : List FS) (body : CleanBody)
        (ok : String → Bool) (hist : List HistoryEntry) (eid ts : String),
        (cleanHandler d root tree body ok hist eid ts).1.simulated = !d) := by
  constructor
  · intro root tree body ok hist eid ts
    rfl
  · intro d root tree body ok hist eid ts
    cases d <;> rfl

/-! ## C1: containment guard in apply mode -/

theorem applyDelete_filter_within (root : String) (ok : String → Bool)
    (cs : List FileRecord) :
    applyDelete root ok cs
      = applyDelete root ok (cs.filter (fun f => withinRoot root f.path)) := by
  unfold applyDelete
  generalize (0, 0, ([] : List String)) = acc
  induction cs generalizing acc with
  | nil => rfl
  | cons f rest ih =>
    by_cases h : withinRoot root f.path
    · simp only [List.filter_cons, h, if_pos, List.foldl_cons, ih]
    · have h' : withinRoot root f.path = false := by simpa using h
      simp only [List.filter_cons, h', List.foldl_cons, if_pos, Bool.false_eq_true,
        if_false, ih]

theorem applyDelete_deleted_within (root : String) (ok : String → Bool)
    (cs : List FileRecord) :
    ∀ p ∈ (applyDelete root ok cs).2.2, withinRoot root p = true := by
  unfold applyDelete
  suffices h : ∀ acc : Nat × Nat × List String,
      (∀ p ∈ acc.2.2, withinRoot root p = true) →
      ∀ p ∈ (cs.foldl
        (fun acc f =>
          if withinRoot root f.path = false then acc
          else if ok f.path then (acc.1 + f.size, acc.2.1 + 1, acc.2.2 ++ [f.path])
          else acc) acc).2.2, withinRoot root p = true by
    exact h (0, 0, []) (by simp)
  induction cs with
  | nil => intro acc hacc; exact hacc
  | cons f rest ih =>
    intro acc hacc
    simp only [List.foldl_cons]
    by_cases hw : withinRoot root f.path = false
    · simp only [hw, if_pos]
      exact ih acc hacc
    · simp only [hw, Bool.false_eq_true, if_false]
      by_cases hok : ok f.path
      · simp only [hok, if_pos]
        refine ih _ ?_
        intro p hp
        rcases List.mem_append.mp hp with hp | hp
        · exact hacc p hp
        · rcases List.mem_singleton.mp hp with rfl
          simpa using hw
      · simp only [hok, if_false]
        exact ih acc hacc

/-- C1: in apply mode, the outcome (bytes, count, deleted paths) is exactly the
outcome over the candidates that pass the containment check — candidates that
fail `withinRoot` are skipped silently, contributing to none of the three;
every deleted path passes `withinRoot`; and the check compares the resolved
path against the resolved root with a trailing separator, so the sibling
directory `/root2` is not treated as inside `/root`. -/
theorem clean_apply_containment :
    (∀ (root : String) (tree : List FS) (body : CleanBody) (ok : String → Bool)
        (hist : List HistoryEntry) (eid ts : String),
        ((cleanHandler true root tree body ok hist eid ts).1.cleanedBytes,
         (cleanHandler true root tree body ok hist eid ts).1.cleanedFiles,
         (cleanHandler true root tree body ok hist eid ts).1.deleted)
          = applyDelete root ok
              ((candidatesOf root tree body).filter (fun f => withinRoot root f.path)))
    ∧ (∀ (root : String) (ok : String → Bool) (cs : List FileRecord) (p : String),
        p ∈ (applyDelete root ok cs).2.2 → withinRoot root p = true)
    ∧ withinRoot "/root" "/root2/secret.mp4" = false
    ∧ withinRoot "/root" "/root/d/c.mp4" = true := by
  refine ⟨?_, ?_, by decide, by decide⟩
  · intro root tree body ok hist eid ts
    rw [← applyDelete_filter_within]
    rfl
  · intro root ok cs p hp
    exact applyDelete_deleted_within root ok cs p hp

/-- A candidate file wholly inside the root, used to witness C1. -/
def wrec : FileRecord :=
  { path := "/root/x.log", name := "x.log", size := 7, category := some "logs" }

theorem clean_apply_containment_witness :
    withinRoot "/root" "/root/x.log" = true :=
  clean_apply_containment.2.1 "/root" (fun _ => true) [wrec] "/root/x.log" (by decide)

/-! ## C10: missing or non-array category selection -/

/-- C10: a missing request body, or one whose `categories` is not an array, is
treated as the empty selection: nothing is unlinked, `cleanedBytes` and
`cleanedFiles` are 0, yet a history entry for the no-op (with an empty
categories list) is still prepended to the truncated ledger. -/
theorem clean_empty_selection (d : Bool) (root : String) (tree : List FS)
    (ok : String → Bool) (hist : List HistoryEntry) (eid ts : String)
    (body : CleanBody) (hbody : body = CleanBody.missing ∨ body = CleanBody.notArray) :
    (cleanHandler d root tree body ok hist eid ts).1.cleanedBytes = 0
    ∧ (cleanHandler d root tree body ok hist eid ts).1.cleanedFiles = 0
    ∧ (cleanHandler d root tree body ok hist eid ts).1.deleted = []
    ∧ (cleanHandler d root tree body ok hist eid ts).2 =
        ({ id := eid, time := ts, cleanedMB := 0, cleanedFiles := 0,
           categories := [], simulated := !d } :: hist).take 10 := by
  have hids : targetIdsOf body = [] := by
    rcases hbody with h | h <;> subst h <;> rfl
  have hcand : candidatesOf root tree body = [] := by
    simp [candidatesOf, hids]
  cases d <;>
    simp [cleanHandler, hcand, hids, applyDelete, sumSizes, updateHistory, toMB, MB]

theorem clean_empty_selection_witness :
    (cleanHandler true "/r" [] CleanBody.missing (fun _ => false) [] "e" "t").1.cleanedBytes = 0
    ∧ (cleanHandler true "/r" [] CleanBody.missing (fun _ => false) [] "e" "t").1.cleanedFiles = 0
    ∧ (cleanHandler true "/r" [] CleanBody.missing (fun _ => false) [] "e" "t").1.deleted = []
    ∧ (cleanHandler true "/r" [] CleanBody.missing (fun _ => false) [] "e" "t").2 =
        ({ id := "e", time := "t", cleanedMB := 0, cleanedFiles := 0,
           categories := [], simulated := false } :: []).take 10 :=
  clean_empty_selection true "/r" [] (fun _ => false) [] "e" "t" CleanBody.missing
    (Or.inl rfl)

/-! ## C2: duplicate grouping by the composite `(name, size)` key

The JavaScript `Map` is keyed by the string `` `${name}:${size}` ``; since the
decimal rendering of a size contains no `:`, that string key is injective in
the pair `(name, size)` — proved below via a decimal-digits value function. -/

/-- Numeric value of a decimal digit character. -/
def charVal (c : Char) : Nat := c.toNat - 48

/-- The decimal digit characters of `n`, most significant first. -/
def digitsOf (n : Nat) : List Char :=
  if _h : n < 10 then [Nat.digitChar n]
  else digitsOf (n / 10) ++ [Nat.digitChar (n % 10)]
termination_by n
decreasing_by
  exact Nat.div_lt_self (by omega) (by omega)

theorem toDigitsCore_eq_digitsOf (fuel : Nat) :
    ∀ (n : Nat) (ds : List Char), n < fuel →
      Nat.toDigitsCore 10 fuel n ds = digitsOf n ++ ds := by
  induction fuel with
  | zero => intro n ds h; omega
  | succ f ih =>
    intro n ds h
    simp only [Nat.toDigitsCore]
    by_cases h0 : n / 10 = 0
    · have hlt : n < 10 := by omega
      rw [if_pos h0, digitsOf, dif_pos hlt, Nat.mod_eq_of_lt hlt]
      simp
    · rw [if_neg h0, ih (n / 10) _ (by omega)]
      conv_rhs => rw [digitsOf]
      rw [dif_neg (by omega)]
      simp

theorem repr_data_eq_digitsOf (n : Nat) : (Nat.repr n).data = digitsOf n := by
  show ((Nat.toDigits 10 n).asString).data = digitsOf n
  rw [Nat.toDigits, toDigitsCore_eq_digitsOf (n + 1) n [] (by omega)]
  simp [List.asString]

theorem digitChar_val (d : Nat) (h : d < 10) : charVal (Nat.digitChar d) = d := by
  have hall : ∀ i : Fin 10, charVal (Nat.digitChar i.val) = i.val := by decide
  simpa using hall ⟨d, h⟩

/-- Value of a digit string, most significant digit first. -/
def digitsVal (l : List Char) : Nat := l.foldl (fun a c => 10 * a + charVal c) 0

theorem digitsVal_append_singleton (xs : List Char) (c : Char) :
    digitsVal (xs ++ [c]) = 10 * digitsVal xs + charVal c := by
  simp [digitsVal, List.foldl_append]

theorem digitsVal_digitsOf (n : Nat) : digitsVal (digitsOf n) = n := by
  induction n using Nat.strong_induction_on with
  | _ n ih =>
    by_cases h : n < 10
    · rw [digitsOf, dif_pos h]
      simp [digitsVal, digitChar_val n h]
    · rw [digitsOf, dif_neg h, digitsVal_append_singleton,
        ih (n / 10) (Nat.div_lt_self (by omega) (by omega)),
        digitChar_val (n % 10) (by omega)]
      omega

theorem repr_injective (m n : Nat) (h : Nat.repr m = Nat.repr n) : m = n := by
  have hd := congrArg String.data h
  rw [repr_data_eq_digitsOf, repr_data_eq_digitsOf] at hd
  have := congrArg digitsVal hd
  rwa [digitsVal_digitsOf, digitsVal_digitsOf] at this

theorem digitChar_ne_colon (n : Nat) : Nat.digitChar n ≠ ':' := by
  by_cases h : n < 16
  · have hall : ∀ i : Fin 16, Nat.digitChar i.val ≠ ':' := by decide
    simpa using hall ⟨n, h⟩
  · unfold Nat.digitChar
    rw [if_neg (by omega : ¬ n = 0), if_neg (by omega : ¬ n = 1),
      if_neg (by omega : ¬ n = 2), if_neg (by omega : ¬ n = 3),
      if_neg (by omega : ¬ n = 4), if_neg (by omega : ¬ n = 5),
      if_neg (by omega : ¬ n = 6), if_neg (by omega : ¬ n = 7),
      if_neg (by omega : ¬ n = 8), if_neg (by omega : ¬ n = 9),
      if_neg (by omega : ¬ n = 0xa), if_neg (by omega : ¬ n = 0xb),
      if_neg (by omega : ¬ n = 0xc), if_neg (by omega : ¬ n = 0xd),
      if_neg (by omega : ¬ n = 0xe), if_neg (by omega : ¬ n = 0xf)]
    decide

theorem colon_not_mem_digitsOf (n : Nat) : ':' ∉ digitsOf n := by
  induction n using Nat.strong_induction_on with
  | _ n ih =>
    by_cases h : n < 10
    · rw [digitsOf, dif_pos h]
      simpa using (digitChar_ne_colon n).symm
    · rw [digitsOf, dif_neg h]
      intro hmem
      rcases List.mem_append.mp hmem with hmem | hmem
      · exact ih (n / 10) (Nat.div_lt_self (by omega) (by omega)) hmem
      · exact (digitChar_ne_colon (n % 10)) (List.mem_singleton.mp hmem).symm

theorem string_data_inj {s t : String} (h : s.data = t.data) : s = t := by
  cases s; cases t; exact congrArg String.mk h

theorem append_colon_inj (a : List Char) :
    ∀ (b s t : List Char), ':' ∉ s → ':' ∉ t →
      a ++ ':' :: s = b ++ ':' :: t → a = b ∧ s = t := by
  induction a with
  | nil =>
    intro b s t hs _ h
    cases b with
    | nil => simpa using h
    | cons c b' =>
      exfalso
      simp only [List.nil_append, List.cons_append, List.cons.injEq] at h
      exact hs (h.2 ▸ List.mem_append_right b' (List.mem_cons_self _ _))
  | cons c a' ih =>
    intro b s t hs ht h
    cases b with
    | nil =>
      exfalso
      simp only [List.nil_append, List.cons_append, List.cons.injEq] at h
      exact ht (h.2.symm ▸ List.mem_append_right a' (List.mem_cons_self _ _))
    | cons c' b' =>
      simp only [List.cons_append, List.cons.injEq] at h
      obtain ⟨rfl, h2⟩ := h
      obtain ⟨rfl, rfl⟩ := ih b' s t hs ht h2
      exact ⟨rfl, rfl⟩

theorem dupKey_data (f : FileRecord) :
    (dupKey f).data = f.name.data ++ ':' :: (Nat.repr f.size).data := by
  show ((f.name ++ ":") ++ toString f.size).data = _
  rw [String.data_append, String.data_append]
  simp [List.append_assoc]
  rfl

theorem dupKey_eq_iff (g f : FileRecord) :
    dupKey g = dupKey f ↔ g.name = f.name ∧ g.size = f.size := by
  constructor
  · intro h
    have hd := congrArg String.data h
    rw [dupKey_data, dupKey_data] at hd
    obtain ⟨h1, h2⟩ := append_colon_inj _ _ _ _
      (by rw [repr_data_eq_digitsOf]; exact colon_not_mem_digitsOf g.size)
      (by rw [repr_data_eq_digitsOf]; exact colon_not_mem_digitsOf f.size) hd
    exact ⟨string_data_inj h1,
      repr_injective _ _ (string_data_inj h2)⟩
  · rintro ⟨h1, h2⟩
    unfold dupKey
    rw [h1, h2]

theorem dedupAux_length (seen : List String) (files : List FileRecord) :
    (dedupAux seen files).length = files.length := by
  induction files generalizing seen with
  | nil => rfl
  | cons f rest ih => simp [dedupAux, ih]

theorem dedupAux_getElemQ (seen : List String) (files : List FileRecord) (i : Nat) :
    (dedupAux seen files)[i]? = (files[i]?).map (fun f =>
      if dupKey f ∈ seen ∨ ∃ g ∈ files.take i, dupKey g = dupKey f
      then { f with category := some "duplicates" } else f) := by
  induction files generalizing seen i with
  | nil => simp [dedupAux]
  | cons f rest ih =>
    cases i with
    | zero =>
      simp only [dedupAux, List.getElem?_cons_zero, List.take_zero, Option.map_some',
        List.not_mem_nil, false_and, exists_false, or_false]
    | succ i =>
      simp only [dedupAux, List.getElem?_cons_succ, ih (dupKey f :: seen) i,
        List.take_succ_cons]
      cases hg : rest[i]? with
      | none => rfl
      | some g =>
        simp only [Option.map_some']
        have hcond : (dupKey g ∈ dupKey f :: seen ∨ ∃ h ∈ rest.take i, dupKey h = dupKey g)
            ↔ (dupKey g ∈ seen ∨ ∃ h ∈ f :: rest.take i, dupKey h = dupKey g) := by
          constructor
          · rintro (hm | ⟨x, hx, hxk⟩)
            · rcases List.mem_cons.mp hm with hk | hk
              · exact Or.inr ⟨f, List.mem_cons_self f _, hk.symm⟩
              · exact Or.inl hk
            · exact Or.inr ⟨x, List.mem_cons_of_mem f hx, hxk⟩
          · rintro (hm | ⟨x, hx, hxk⟩)
            · exact Or.inl (List.mem_cons_of_mem _ hm)
            · rcases List.mem_cons.mp hx with rfl | hx'
              · exact Or.inl (by rw [List.mem_cons]; exact Or.inl hxk.symm)
              · exact Or.inr ⟨x, hx', hxk⟩
        exact congrArg some (if_congr hcond rfl rfl)

/-- C2: the deduplicator groups records by the composite key `(name, size)`
(the string key `` `${name}:${size}` `` is injective in the pair); the output
has the same length and, position by position, a record is returned unchanged
unless an EARLIER record of the walk order shares its name and size, in which
case only its category is overwritten with `duplicates`.  Hence the first
member of every group keeps the category the categorizer assigned, every later
member is retagged regardless of its category, and singleton groups are
untouched. -/
theorem dedup_groups_by_name_size (files : List FileRecord) (i : Nat) :
    (dedup files).length = files.length ∧
    (dedup files)[i]? = (files[i]?).map (fun f =>
      if ∃ g ∈ files.take i, g.name = f.name ∧ g.size = f.size
      then { f with category := some "duplicates" } else f) := by
  refine ⟨dedupAux_length [] files, ?_⟩
  rw [dedup, dedupAux_getElemQ]
  cases hf : files[i]? with
  | none => rfl
  | some f =>
    simp only [Option.map_some']
    have hcond : (dupKey f ∈ ([] : List String) ∨ ∃ g ∈ files.take i, dupKey g = dupKey f)
        ↔ ∃ g ∈ files.take i, g.name = f.name ∧ g.size = f.size := by
      simp only [List.not_mem_nil, false_or]
      constructor
      · rintro ⟨g, hg, hk⟩
        exact ⟨g, hg, (dupKey_eq_iff g f).mp hk⟩
      · rintro ⟨g, hg, hk⟩
        exact ⟨g, hg, (dupKey_eq_iff g f).mpr hk⟩
    exact congrArg some (if_congr hcond rfl rfl)

/-! ## C6: categorization rules (claimed vs. implemented) -/

/-- The text after the last `.` of a character list, `none` when there is no
dot at all. -/
def afterLastDot (l : List Char) : Option (List Char) :=
  let after := l.reverse.takeWhile (fun c => c ≠ '.')
  if after.length = l.length then none else some after.reverse

/-- The media extension names without their dots, as the claim lists them. -/
def MEDIA_NAMES : List String :=
  ["mp4", "mov", "mkv", "avi", "zip", "rar", "7z", "tar", "gz", "iso"]

/-- The log extension names without their dots, as the claim lists them. -/
def LOG_NAMES : List String := ["log"]

/-- The categorization rule exactly as the claim words it: case-insensitive;
a separator-delimited segment `cache` or `tmp` (i.e. the substring `/cache/`
or `/tmp/` of the lowered path) gives `cache`; else a `downloads` segment
gives `downloads`; else the lower-cased extension "after the last dot" of the
path selects `media` or `logs`; else none. -/
def categorizeClaimed (p : String) : Option String :=
  let lower := lowerStr p
  if strIncludes lower "/cache/" || strIncludes lower "/tmp/" then some "cache"
  else if strIncludes lower "/downloads/" then some "downloads"
  else
    match afterLastDot lower.data with
    | none => none
    | some e =>
      if String.mk e ∈ MEDIA_NAMES then some "media"
      else if String.mk e ∈ LOG_NAMES then some "logs"
      else none

/-- The extension rule as amended: the extension is taken from the last dot of
the FINAL path segment, and there is no extension when that segment has no
dot, when its only dot is its leading character (dotfiles), or when the
segment is `..` — exactly Node's `path.extname` semantics. -/
def extAmended (l : List Char) : Option (List Char) :=
  let base := lastSegment l
  let after := base.reverse.takeWhile (fun c => c ≠ '.')
  if after.length = base.length then none
  else if base.length - after.length - 1 = 0 then none
  else if base = ['.', '.'] then none
  else some after.reverse

/-- The claim's categorization rule with the amended extension clause. -/
def categorizeAmended (p : String) : Option String :=
  let lower := lowerStr p
  if strIncludes lower "/cache/" || strIncludes lower "/tmp/" then some "cache"
  else if strIncludes lower "/downloads/" then some "downloads"
  else
    match extAmended lower.data with
    | none => none
    | some e =>
      if String.mk e ∈ MEDIA_NAMES then some "media"
      else if String.mk e ∈ LOG_NAMES then some "logs"
      else none

theorem data_mk (l : List Char) : (String.mk l).data = l := rfl

theorem mem_media_iff (e : List Char) :
    (String.mk ('.' :: e) ∈ MEDIA_EXTS) ↔ String.mk e ∈ MEDIA_NAMES := by
  have e1 : (".mp4" : String) = String.mk ('.' :: ("mp4" : String).data) := rfl
  have e2 : (".mov" : String) = String.mk ('.' :: ("mov" : String).data) := rfl
  have e3 : (".mkv" : String) = String.mk ('.' :: ("mkv" : String).data) := rfl
  have e4 : (".avi" : String) = String.mk ('.' :: ("avi" : String).data) := rfl
  have e5 : (".zip" : String) = String.mk ('.' :: ("zip" : String).data) := rfl
  have e6 : (".rar" : String) = String.mk ('.' :: ("rar" : String).data) := rfl
  have e7 : (".7z" : String) = String.mk ('.' :: ("7z" : String).data) := rfl
  have e8 : (".tar" : String) = String.mk ('.' :: ("tar" : String).data) := rfl
  have e9 : (".gz" : String) = String.mk ('.' :: ("gz" : String).data) := rfl
  have e10 : (".iso" : String) = String.mk ('.' :: ("iso" : String).data) := rfl
  simp only [MEDIA_EXTS, MEDIA_NAMES, List.mem_cons, List.not_mem_nil, or_false,
    e1, e2, e3, e4, e5, e6, e7, e8, e9, e10, String.ext_iff, data_mk, List.cons.injEq,
    true_and]

theorem mem_log_iff (e : List Char) :
    (String.mk ('.' :: e) ∈ LOG_EXTS) ↔ String.mk e ∈ LOG_NAMES := by
  have e1 : (".log" : String) = String.mk ('.' :: ("log" : String).data) := rfl
  simp only [LOG_EXTS, LOG_NAMES, List.mem_cons, List.not_mem_nil, or_false,
    e1, String.ext_iff, data_mk, List.cons.injEq, true_and]

theorem extnameOf_eq_match (p : String) :
    extnameOf p = (match extAmended p.data with
      | none => ""
      | some e => String.mk ('.' :: e)) := by
  simp only [extnameOf, extAmended]
  split_ifs <;> rfl

theorem categorizeFile_eq_amended (p : String) :
    categorizeFile p = categorizeAmended p := by
  have htail :
      (if extnameOf (lowerStr p) ∈ MEDIA_EXTS then some "media"
       else if extnameOf (lowerStr p) ∈ LOG_EXTS then some "logs"
       else (none : Option String))
      = (match extAmended (lowerStr p).data with
         | none => none
         | some e =>
           if String.mk e ∈ MEDIA_NAMES then some "media"
           else if String.mk e ∈ LOG_NAMES then some "logs"
           else none) := by
    rw [extnameOf_eq_match]
    cases hE : extAmended (lowerStr p).data with
    | none => decide
    | some e => exact if_congr (mem_media_iff e) rfl (if_congr (mem_log_iff e) rfl rfl)
  simp only [categorizeFile, categorizeAmended]
  rw [htail]

/-- The test corpus the two categorizer variants are compared on: the file
paths (and their names) of the specification's end-to-end scenario. -/
def TEST_CORPUS : List (String × String) :=
  [("a.log", "/root/a.log"), ("b.mp4", "/root/b.mp4"),
   ("c.mp4", "/root/c.mp4"), ("c.mp4", "/root/d/c.mp4")]

/-- C6 counterexample: on the dotfile path `/data/.log` the rule as claimed
(extension = text after the last dot, here `log`) yields `logs`, but the
server categorizer yields `none`, because Node's `path.extname` treats a
final segment whose only dot is leading as having no extension. -/
theorem categorize_claim_cex :
    categorizeClaimed "/data/.log" = some "logs"
    ∧ categorizeFile "/data/.log" = none
    ∧ categorizeClaimed "/data/.log" ≠ categorizeFile "/data/.log" := by
  refine ⟨by decide, by decide, by decide⟩

/-- C6 (amended): the server categorizer is a pure function of the path that
applies the claimed priority rules — `/cache/` or `/tmp/` segment, then
`/downloads/` segment, then extension — **with the extension taken as Node's
`path.extname` does**: from the last dot of the final path segment, and empty
for dotfiles, dotless segments and `..` (so e.g. `/data/.log` is uncategorized
rather than `logs`).  It is case-insensitive: paths with equal lower-casings
categorize equally.  The server and client variants agree on the supplied
test corpus (the spec's end-to-end scenario files). -/
theorem categorize_rules_amended :
    (∀ p, categorizeFile p = categorizeAmended p)
    ∧ (∀ p q, lowerStr p = lowerStr q → categorizeFile p = categorizeFile q)
    ∧ (∀ pr ∈ TEST_CORPUS, categorizeName pr.1 pr.2 = categorizeFile pr.2) := by
  refine ⟨categorizeFile_eq_amended, ?_, by decide⟩
  intro p q h
  simp only [categorizeFile]
  rw [h]

theorem categorize_rules_amended_witness :
    categorizeFile "/ROOT/A.LOG" = categorizeFile "/root/a.log" :=
  categorize_rules_amended.2.1 "/ROOT/A.LOG" "/root/a.log" (by decide)

/-! ## C7: the end-to-end scenario -/

/-- The spec's end-to-end scenario root: `a.log` (10 MB), `b.mp4` (50 MB),
`c.mp4` (50 MB) and a second copy `d/c.mp4` of identical name and size. -/
def scenarioTree : List FS :=
  [FS.file "a.log" 10485760, FS.file "b.mp4" 52428800, FS.file "c.mp4" 52428800,
   FS.dir "d" [FS.file "c.mp4" 52428800]]

theorem scenario_files_eval :
    scanFiles "/root" scenarioTree =
      [{ path := "/root/a.log", name := "a.log", size := 10485760,
         category := some "logs" },
       { path := "/root/b.mp4", name := "b.mp4", size := 52428800,
         category := some "media" },
       { path := "/root/c.mp4", name := "c.mp4", size := 52428800,
         category := some "media" },
       { path := "/root/d/c.mp4", name := "c.mp4", size := 52428800,
         category := some "media" }] := by
  rw [scanFiles, walkAux_cons]
  rw [show (subDirs "/root" scenarioTree).reverse ++ ([] : List (String × List FS))
      = [("/root/d", [FS.file "c.mp4" 52428800])] from rfl]
  rw [walkAux_cons]
  rw [show (subDirs "/root/d" [FS.file "c.mp4" 52428800]).reverse
        ++ ([] : List (String × List FS)) = [] from rfl]
  rw [walkAux_nil]
  decide

theorem scenario_dedup_eval :
    dedup (scanFiles "/root" scenarioTree) =
      [{ path := "/root/a.log", name := "a.log", size := 10485760,
         category := some "logs" },
       { path := "/root/b.mp4", name := "b.mp4", size := 52428800,
         category := some "media" },
       { path := "/root/c.mp4", name := "c.mp4", size := 52428800,
         category := some "media" },
       { path := "/root/d/c.mp4", name := "c.mp4", size := 52428800,
         category := some "duplicates" }] := by
  rw [scenario_files_eval]
  simp [dedup, dedupAux, dupKey_eq_iff]

theorem scenario_categories_eval :
    ((scanRoot "/root" scenarioTree).categories.map (fun c => (c.id, c.sizeMB)))
      = [("cache", 0), ("downloads", 0), ("duplicates", 50), ("media", 100), ("logs", 10)] := by
  rw [scanRoot_categories, scenario_dedup_eval]
  decide

theorem scenario_used_eval :
    (scanRoot "/root" scenarioTree).totalUsedMB = 160 := by
  rw [scanRoot_used, scenario_dedup_eval]
  decide

theorem scenario_reclaimable_eval :
    (scanRoot "/root" scenarioTree).totalReclaimableMB = 160 := by
  rw [scanRoot_reclaimable, scenario_dedup_eval]
  decide

/-- C7 counterexample: on the scenario tree the snapshot does NOT report
media 50 MB and totalReclaimableMB 110 — both `b.mp4` and the first `c.mp4`
keep category `media` (the deduplicator only retags the second copy), so
media is 100 MB and the reclaimable total is 160 MB. -/
theorem scenario_cex :
    ¬ (((scanRoot "/root" scenarioTree).categories.map (fun c => (c.id, c.sizeMB)))
          = [("cache", 0), ("downloads", 0), ("duplicates", 50), ("media", 50), ("logs", 10)]
        ∧ (scanRoot "/root" scenarioTree).totalReclaimableMB = 110) := by
  rintro ⟨h1, h2⟩
  rw [scenario_reclaimable_eval] at h2
  exact absurd h2 (by decide)

/-- C7 (amended): on the scenario tree the snapshot reports logs 10 MB,
duplicates 50 MB (the later `d/c.mp4` copy) — but media 100 MB (`b.mp4` plus
the first `c.mp4`), `totalUsedMB` 160 MB (which is ≥ 110 MB as claimed), and
`totalReclaimableMB` 160 MB rather than 110 MB. -/
theorem scenario_amended :
    ((scanRoot "/root" scenarioTree).categories.map (fun c => (c.id, c.sizeMB)))
        = [("cache", 0), ("downloads", 0), ("duplicates", 50), ("media", 100), ("logs", 10)]
    ∧ (scanRoot "/root" scenarioTree).totalUsedMB = 160
    ∧ 110 ≤ (scanRoot "/root" scenarioTree).totalUsedMB
    ∧ (scanRoot "/root" scenarioTree).totalReclaimableMB = 160 := by
  refine ⟨scenario_categories_eval, scenario_used_eval, ?_, scenario_reclaimable_eval⟩
  rw [scenario_used_eval]
  decide

/-! ## Unfolding equations for the client walker (used by C8 and C9) -/

theorem scanSafChildren_nil (uri : String) (files : List FileRecord) :
    scanSafChildren uri [] files = files := by
  rw [scanSafChildren.eq_def]

theorem scanSafChildren_cons (uri : String) (c : FS) (rest : List FS)
    (files : List FileRecord) :
    scanSafChildren uri (c :: rest) files =
      if MAX_SCAN_FILES ≤ files.length then files
      else scanSafChildren uri rest (scanSafTree (uri ++ "/" ++ entryName c) c files) := by
  rw [scanSafChildren.eq_def]

theorem scanSafTree_at_cap (uri : String) (t : FS) (files : List FileRecord)
    (h : MAX_SCAN_FILES ≤ files.length) : scanSafTree uri t files = files := by
  simp only [scanSafTree.eq_def]
  rw [if_pos h]

theorem scanSafTree_file (uri nm : String) (sz : Nat) (files : List FileRecord)
    (h : ¬ MAX_SCAN_FILES ≤ files.length) :
    scanSafTree uri (FS.file nm sz) files
      = files ++
          [{ path := uri, name := guessNameFromUri uri, size := sz,
             category := categorizeName (guessNameFromUri uri) uri }] := by
  simp only [scanSafTree.eq_def]
  rw [if_neg h]

theorem scanSafTree_dir (uri nm : String) (cs : List FS) (files : List FileRecord)
    (h : ¬ MAX_SCAN_FILES ≤ files.length) :
    scanSafTree uri (FS.dir nm cs) files = scanSafChildren uri cs files := by
  simp only [scanSafTree.eq_def]
  rw [if_neg h]

/-! ## C8: ignored directories (server walker only) -/

/-- Is this entry a directory whose name is in the ignored set? -/
def isIgnoredDir : FS → Bool
  | .dir n _ => decide (n ∈ IGNORED_DIRS)
  | .file _ _ => false

/-- Remove every ignored directory — together with its whole subtree — from a
listing, recursively. -/
def pruneList : List FS → List FS
  | [] => []
  | FS.file n sz :: rest => FS.file n sz :: pruneList rest
  | FS.dir n es :: rest =>
    if n ∈ IGNORED_DIRS then pruneList rest
    else FS.dir n (pruneList es) :: pruneList rest

theorem dirFiles_cons_file (cur n : String) (sz : Nat) (l : List FS) :
    dirFiles cur (FS.file n sz :: l)
      = { path := cur ++ "/" ++ n, name := n, size := sz,
          category := categorizeFile (cur ++ "/" ++ n) } :: dirFiles cur l := by
  simp [dirFiles, List.filterMap_cons]

theorem dirFiles_cons_dir (cur n : String) (es l : List FS) :
    dirFiles cur (FS.dir n es :: l) = dirFiles cur l := by
  simp [dirFiles, List.filterMap_cons]

theorem subDirs_cons_file (cur n : String) (sz : Nat) (l : List FS) :
    subDirs cur (FS.file n sz :: l) = subDirs cur l := by
  simp [subDirs, List.filterMap_cons]

theorem subDirs_cons_dir_ignored (cur n : String) (es l : List FS)
    (h : n ∈ IGNORED_DIRS) :
    subDirs cur (FS.dir n es :: l) = subDirs cur l := by
  simp [subDirs, List.filterMap_cons, h]

theorem subDirs_cons_dir (cur n : String) (es l : List FS)
    (h : n ∉ IGNORED_DIRS) :
    subDirs cur (FS.dir n es :: l) = (cur ++ "/" ++ n, es) :: subDirs cur l := by
  simp [subDirs, List.filterMap_cons, h]

theorem dirFiles_pruneList (cur : String) (es : List FS) :
    dirFiles cur (pruneList es) = dirFiles cur es := by
  induction es with
  | nil => rw [pruneList]
  | cons e rest ih =>
    cases e with
    | file n sz => rw [pruneList, dirFiles_cons_file, dirFiles_cons_file, ih]
    | dir n es' =>
      rw [pruneList]
      by_cases h : n ∈ IGNORED_DIRS
      · rw [if_pos h, dirFiles_cons_dir, ih]
      · rw [if_neg h, dirFiles_cons_dir, dirFiles_cons_dir, ih]

theorem subDirs_pruneList (cur : String) (es : List FS) :
    subDirs cur (pruneList es)
      = (subDirs cur es).map (fun q => (q.1, pruneList q.2)) := by
  induction es with
  | nil => rw [pruneList]; rfl
  | cons e rest ih =>
    cases e with
    | file n sz => rw [pruneList, subDirs_cons_file, subDirs_cons_file, ih]
    | dir n es' =>
      rw [pruneList]
      by_cases h : n ∈ IGNORED_DIRS
      · rw [if_pos h, subDirs_cons_dir_ignored cur n es' rest h, ih]
      · rw [if_neg h, subDirs_cons_dir cur n (pruneList es') (pruneList rest) h,
          subDirs_cons_dir cur n es' rest h, List.map_cons, ih]

theorem walkAux_prune (w : Nat) :
    ∀ stack : List (String × List FS), stackWeight stack ≤ w →
      walkAux (stack.map (fun q => (q.1, pruneList q.2))) = walkAux stack := by
  induction w with
  | zero =>
    intro stack h
    cases stack with
    | nil => rfl
    | cons p rest =>
      obtain ⟨c, es⟩ := p
      exfalso
      simp [stackWeight] at h
  | succ w ih =>
    intro stack h
    cases stack with
    | nil => rfl
    | cons p rest =>
      obtain ⟨cur, entries⟩ := p
      rw [List.map_cons,
        show (((cur, entries).1 : String), pruneList (cur, entries).2)
          = (cur, pruneList entries) from rfl,
        walkAux_cons, walkAux_cons, dirFiles_pruneList]
      congr 1
      rw [subDirs_pruneList, ← List.map_reverse, ← List.map_append]
      apply ih
      have hlt := walk_step_lt cur entries rest
      simp only [stackWeight] at h hlt
      omega

theorem scanFiles_prune (root : String) (entries : List FS) :
    scanFiles root (pruneList entries) = scanFiles root entries := by
  have h := walkAux_prune (stackWeight [(root, entries)]) [(root, entries)] le_rfl
  simpa [scanFiles] using h

theorem pruneList_all_ignored (es : List FS) (h : es.all isIgnoredDir = true) :
    pruneList es = [] := by
  induction es with
  | nil => rw [pruneList]
  | cons e rest ih =>
    rw [List.all_cons, Bool.and_eq_true] at h
    cases e with
    | file n sz => simp [isIgnoredDir] at h
    | dir n es' =>
      have hn : n ∈ IGNORED_DIRS := by simpa [isIgnoredDir] using h.1
      rw [pruneList, if_pos hn, ih h.2]

theorem clientWalk_node_modules_eval :
    scanSafTree "/r" (FS.dir "r" [FS.dir "node_modules" [FS.file "x.mp4" 5]]) []
      = [{ path := "/r/node_modules/x.mp4", name := "x.mp4", size := 5,
           category := some "media" }] := by
  have hcap : ¬ MAX_SCAN_FILES ≤ ([] : List FileRecord).length := by decide
  rw [scanSafTree_dir _ _ _ _ hcap, scanSafChildren_cons, if_neg hcap]
  rw [show ("/r" ++ "/" ++ entryName (FS.dir "node_modules" [FS.file "x.mp4" 5]))
      = "/r/node_modules" from rfl]
  rw [scanSafTree_dir _ _ _ _ hcap, scanSafChildren_cons, if_neg hcap]
  rw [show ("/r/node_modules" ++ "/" ++ entryName (FS.file "x.mp4" 5))
      = "/r/node_modules/x.mp4" from rfl]
  rw [scanSafTree_file _ _ _ _ hcap]
  simp only [scanSafChildren_nil]
  decide

/-- C8 counterexample: the claim covers both walkers, but the CLIENT walker
(`scanSafTree`) performs no ignored-directory check at all — it descends into
`node_modules` and emits the file inside, so a client root containing only an
ignored directory does NOT walk to the empty file sequence. -/
theorem walker_ignored_cex :
    scanSafTree "/r" (FS.dir "r" [FS.dir "node_modules" [FS.file "x.mp4" 5]]) []
      = [{ path := "/r/node_modules/x.mp4", name := "x.mp4", size := 5,
           category := some "media" }]
    ∧ scanSafTree "/r" (FS.dir "r" [FS.dir "node_modules" [FS.file "x.mp4" 5]]) []
        ≠ [] := by
  refine ⟨clientWalk_node_modules_eval, ?_⟩
  rw [clientWalk_node_modules_eval]
  decide

/-- C8 (amended): the SERVER walker never descends into a directory whose name
is in the ignored set and emits no file from under one — its walk equals the
walk of the tree with every ignored directory (and its whole subtree) removed,
and a server root whose listing consists only of ignored directories walks to
the empty file sequence.  The CLIENT walker has no ignored-directory check:
it descends into such directories and emits their files (here
`node_modules/x.mp4`). -/
theorem walker_skips_ignored_amended :
    (∀ (root : String) (entries : List FS),
        scanFiles root (pruneList entries) = scanFiles root entries)
    ∧ (∀ (root : String) (entries : List FS), entries.all isIgnoredDir = true →
        scanFiles root entries = [])
    ∧ scanSafTree "/r" (FS.dir "r" [FS.dir "node_modules" [FS.file "x.mp4" 5]]) []
        = [{ path := "/r/node_modules/x.mp4", name := "x.mp4", size := 5,
             category := some "media" }] := by
  refine ⟨scanFiles_prune, ?_, clientWalk_node_modules_eval⟩
  intro root entries h
  rw [← scanFiles_prune root entries, pruneList_all_ignored entries h]
  rw [scanFiles, walkAux_cons]
  simp [dirFiles, subDirs, walkAux_nil]

theorem walker_skips_ignored_amended_witness :
    scanFiles "/r" [FS.dir "node_modules" [FS.file "x.mp4" 5],
      FS.dir ".git" [], FS.dir ".expo" [FS.dir "cache" [FS.file "y.log" 3]]] = [] :=
  walker_skips_ignored_amended.2.1 "/r"
    [FS.dir "node_modules" [FS.file "x.mp4" 5],
     FS.dir ".git" [], FS.dir ".expo" [FS.dir "cache" [FS.file "y.log" 3]]]
    (by decide)

/-! ## C9: the client-side 1500-file cap -/

theorem fsWeight_pos (t : FS) : 1 ≤ fsWeight t := by
  cases t <;> simp [fsWeight]

theorem scanSafChildren_cap (w : Nat) :
    ∀ (uri : String) (cs : List FS) (files : List FileRecord),
      fsListWeight cs ≤ w → files.length ≤ MAX_SCAN_FILES →
      (scanSafChildren uri cs files).length ≤ MAX_SCAN_FILES := by
  induction w using Nat.strong_induction_on with
  | _ w ih =>
    intro uri cs files hw hf
    cases cs with
    | nil => rw [scanSafChildren_nil]; exact hf
    | cons c rest =>
      rw [scanSafChildren_cons]
      by_cases hcap : MAX_SCAN_FILES ≤ files.length
      · rw [if_pos hcap]; exact hf
      · rw [if_neg hcap]
        have hwc := fsWeight_pos c
        have hw' : fsWeight c + fsListWeight rest ≤ w := by
          have : fsListWeight (c :: rest) = fsWeight c + fsListWeight rest := by
            rw [fsListWeight]
          omega
        have htree : (scanSafTree (uri ++ "/" ++ entryName c) c files).length
            ≤ MAX_SCAN_FILES := by
          cases c with
          | file nm sz =>
            rw [scanSafTree_file _ _ _ _ hcap]
            simp only [List.length_append, List.length_cons, List.length_nil]
            omega
          | dir nm cs' =>
            rw [scanSafTree_dir _ _ _ _ hcap]
            have hsub : fsListWeight cs' < w := by
              have : fsWeight (FS.dir nm cs') = 1 + fsListWeight cs' := by
                rw [fsWeight]
              omega
            exact ih (fsListWeight cs') hsub _ cs' files le_rfl hf
        have hrest : fsListWeight rest < w := by omega
        exact ih (fsListWeight rest) hrest uri rest _ le_rfl htree

theorem scanSafTree_cap (uri : String) (t : FS) (files : List FileRecord)
    (hf : files.length ≤ MAX_SCAN_FILES) :
    (scanSafTree uri t files).length ≤ MAX_SCAN_FILES := by
  by_cases hcap : MAX_SCAN_FILES ≤ files.length
  · rw [scanSafTree_at_cap _ _ _ hcap]; exact hf
  · cases t with
    | file nm sz =>
      rw [scanSafTree_file _ _ _ _ hcap]
      simp only [List.length_append, List.length_cons, List.length_nil]
      omega
    | dir nm cs =>
      rw [scanSafTree_dir _ _ _ _ hcap]
      exact scanSafChildren_cap (fsListWeight cs) uri cs files le_rfl hf

theorem dirFiles_replicate (root nm : String) (sz n : Nat) :
    (dirFiles root (List.replicate n (FS.file nm sz))).length = n := by
  induction n with
  | zero => rfl
  | succ n ih =>
    rw [List.replicate_succ, dirFiles_cons_file]
    simp [ih]

theorem subDirs_replicate (root nm : String) (sz n : Nat) :
    subDirs root (List.replicate n (FS.file nm sz)) = [] := by
  induction n with
  | zero => rfl
  | succ n ih =>
    rw [List.replicate_succ, subDirs_cons_file]
    exact ih

theorem scanFiles_replicate (root nm : String) (sz n : Nat) :
    (scanFiles root (List.replicate n (FS.file nm sz))).length = n := by
  rw [scanFiles, walkAux_cons, subDirs_replicate]
  simp [walkAux_nil, dirFiles_replicate]

/-- C9: the client walk emits at most `MAX_SCAN_FILES = 1500` records for any
root; its `limitReached` flag is set exactly when the cap was hit; once the
running record list has reached the cap the traversal stops immediately,
returning the list unchanged; and the server walk has no such cap — on a flat
root of `n` files it emits exactly `n` records, for every `n` (in particular
more than 1500). -/
theorem client_cap_1500 :
    (∀ (uri : String) (t : FS), (scanDeviceStorage uri t).1.length ≤ MAX_SCAN_FILES)
    ∧ (∀ (uri : String) (t : FS),
        (scanDeviceStorage uri t).2 = true
          ↔ (scanDeviceStorage uri t).1.length = MAX_SCAN_FILES)
    ∧ (∀ (uri : String) (t : FS) (files : List FileRecord),
        MAX_SCAN_FILES ≤ files.length → scanSafTree uri t files = files)
    ∧ (∀ (root nm : String) (n : Nat),
        (scanFiles root (List.replicate n (FS.file nm 1))).length = n) := by
  have hcap : ∀ (uri : String) (t : FS),
      (scanSafTree uri t []).length ≤ MAX_SCAN_FILES :=
    fun uri t => scanSafTree_cap uri t [] (by simp)
  refine ⟨fun uri t => hcap uri t, ?_, scanSafTree_at_cap,
    fun root nm n => scanFiles_replicate root nm 1 n⟩
  intro uri t
  simp only [scanDeviceStorage]
  constructor
  · intro h
    have h1 : MAX_SCAN_FILES ≤ (scanSafTree uri t []).length := of_decide_eq_true h
    have h2 := hcap uri t
    omega
  · intro h
    exact decide_eq_true (by omega)

/-- A placeholder record used to witness the early-stop clause of C9. -/
def dummyRec : FileRecord := { path := "u", name := "u", size := 0, category := none }

theorem client_cap_1500_witness :
    scanSafTree "u" (FS.file "a" 1) (List.replicate 1500 dummyRec)
      = List.replicate 1500 dummyRec :=
  client_cap_1500.2.2.1 "u" (FS.file "a" 1) (List.replicate 1500 dummyRec)
    (by rw [List.length_replicate]; decide)

end StorageCleaner
